import Mathlib

/-!
Verification of the object codec and tree builder of a content-addressable
git-style object store (Rust sources: `git_object.rs`, `lib.rs`, `main.rs`).

Shallow embedding conventions:
* Rust byte slices / `Vec<u8>` are `List Nat` (each element a byte value).
* Rust `String` values are their UTF-8 byte sequences (`List Nat`); the
  `validUtf8` predicate models `str::from_utf8` / `read_to_string` success.
* Fallible functions return `Except Unit` (anyhow error contents are not
  modelled), and functions that can panic return values in `PResult` /
  `Option`, where `PResult.panic` (resp. `none`) models a Rust panic.
* The SHA-1 digest and hex encoder are implemented in full (the digest of
  `"blob 0\x00"` evaluates to the well-known `e69de29b...` constant).
* Recursive functions over parse buffers and directory trees use an explicit
  fuel argument so that every definition is structurally recursive and can be
  evaluated by `decide`; fuel is always instantiated large enough to be
  irrelevant (structural-size-based), which the fuel-irrelevance lemmas below prove.
-/

set_option maxRecDepth 100000

namespace Git

/-! ### Byte-level utilities -/

/-- Strict lexicographic order on byte sequences: the comparison used by
`Ord` on Rust `String` / `[u8]` (`sort_unstable_by_key` with a `String` key). -/
def bytesLt : List Nat → List Nat → Bool
  | _, [] => false
  | [], _ :: _ => true
  | a :: as, b :: bs => if a < b then true else if b < a then false else bytesLt as bs

def bytesLe (x y : List Nat) : Bool := !bytesLt y x

/-- Eight decimal digits of `format!("{}", n)`: auxiliary with fuel (the fuel
`n + 1` always suffices since a number has at most `n + 1` digits). -/
def natDecAux : Nat → Nat → List Nat
  | 0, _ => []
  | fuel + 1, n => if n < 10 then [48 + n] else natDecAux fuel (n / 10) ++ [48 + n % 10]

/-- ASCII decimal representation of a natural number, `format!("{}", n)`. -/
def natDec (n : Nat) : List Nat := natDecAux (n + 1) n

/-- `str::parse::<usize>()` on the UTF-8 bytes of the string: an optional
leading `+`, then one or more ASCII digits, value below 2^64 (64-bit usize). -/
def parseUsize (s : List Nat) : Option Nat :=
  let digits := if s.head? = some 43 then s.tail else s
  if digits.isEmpty then none
  else if digits.all (fun b => 48 ≤ b && b ≤ 57) then
    let v := digits.foldl (fun acc b => acc * 10 + (b - 48)) 0
    if v < 18446744073709551616 then some v else none
  else none

/-- One lowercase hex digit (`hex::encode` alphabet `0-9a-f`). -/
def hexDigit (n : Nat) : Nat := if n < 10 then 48 + n else 87 + n

/-- `hex::encode`: each byte becomes two lowercase hex ASCII bytes. -/
def hexBytes : List Nat → List Nat
  | [] => []
  | b :: rest => hexDigit (b / 16) :: hexDigit (b % 16) :: hexBytes rest

/-- UTF-8 validation (`str::from_utf8` / `read_to_string`), as a byte-DFA:
the state is the number of continuation bytes still expected together with
the admissible range for the next byte (RFC 3629 ranges, which is exactly
what Rust's validator enforces: no overlongs, no surrogates, max U+10FFFF). -/
def validUtf8Go : List Nat → Nat → Nat → Nat → Bool
  | [], 0, _, _ => true
  | [], _ + 1, _, _ => false
  | b :: rest, 0, _, _ =>
    if b ≤ 127 then validUtf8Go rest 0 128 191
    else if 194 ≤ b && b ≤ 223 then validUtf8Go rest 1 128 191
    else if b = 224 then validUtf8Go rest 2 160 191
    else if 225 ≤ b && b ≤ 236 then validUtf8Go rest 2 128 191
    else if b = 237 then validUtf8Go rest 2 128 159
    else if 238 ≤ b && b ≤ 239 then validUtf8Go rest 2 128 191
    else if b = 240 then validUtf8Go rest 3 144 191
    else if 241 ≤ b && b ≤ 243 then validUtf8Go rest 3 128 191
    else if b = 244 then validUtf8Go rest 3 128 143
    else false
  | b :: rest, k + 1, lo, hi =>
    if lo ≤ b && b ≤ hi then validUtf8Go rest k 128 191 else false

def validUtf8 (l : List Nat) : Bool := validUtf8Go l 0 128 191

/-! ### SHA-1 (the `sha1` crate's `Sha1` digest, in full) -/

def w32 (x : Nat) : Nat := x % 4294967296

def rotl (n x : Nat) : Nat := w32 ((x <<< n) ||| (x >>> (32 - n)))

def wordBE (x : Nat) : List Nat :=
  [x / 16777216 % 256, x / 65536 % 256, x / 256 % 256, x % 256]

def be64 (x : Nat) : List Nat :=
  [x / 72057594037927936 % 256, x / 281474976710656 % 256, x / 1099511627776 % 256,
   x / 4294967296 % 256, x / 16777216 % 256, x / 65536 % 256, x / 256 % 256, x % 256]

def toWords : List Nat → List Nat
  | a :: b :: c :: d :: rest => (((a * 256 + b) * 256 + c) * 256 + d) :: toWords rest
  | _ => []

/-- Message-schedule extension; `acc` holds the words produced so far in
reverse order, so `w[i-3]`, `w[i-8]`, `w[i-14]`, `w[i-16]` are at positions
2, 7, 13, 15. -/
def extendWords : Nat → List Nat → List Nat
  | 0, acc => acc.reverse
  | k + 1, acc =>
    let w := rotl 1 ((acc.getD 2 0) ^^^ (acc.getD 7 0) ^^^ (acc.getD 13 0) ^^^ (acc.getD 15 0))
    extendWords k (w :: acc)

def sha1Rounds : List Nat → Nat → Nat × Nat × Nat × Nat × Nat → Nat × Nat × Nat × Nat × Nat
  | [], _, st => st
  | w :: ws, i, (a, b, c, d, e) =>
    let f :=
      if i < 20 then (b &&& c) ||| ((b ^^^ 4294967295) &&& d)
      else if i < 40 then b ^^^ c ^^^ d
      else if i < 60 then (b &&& c) ||| (b &&& d) ||| (c &&& d)
      else b ^^^ c ^^^ d
    let k :=
      if i < 20 then 1518500249
      else if i < 40 then 1859775393
      else if i < 60 then 2400959708
      else 3395469782
    let temp := w32 (rotl 5 a + f + e + k + w)
    sha1Rounds ws (i + 1) (temp, a, rotl 30 b, c, d)

def sha1Block (block : List Nat) (st : Nat × Nat × Nat × Nat × Nat) :
    Nat × Nat × Nat × Nat × Nat :=
  let ws := extendWords 64 (toWords block).reverse
  match st with
  | (h0, h1, h2, h3, h4) =>
    match sha1Rounds ws 0 (h0, h1, h2, h3, h4) with
    | (a, b, c, d, e) =>
      (w32 (h0 + a), w32 (h1 + b), w32 (h2 + c), w32 (h3 + d), w32 (h4 + e))

def sha1Blocks : Nat → List Nat → Nat × Nat × Nat × Nat × Nat → Nat × Nat × Nat × Nat × Nat
  | 0, _, st => st
  | k + 1, bytes, st => sha1Blocks k (bytes.drop 64) (sha1Block (bytes.take 64) st)

/-- The 20-byte SHA-1 digest of a byte sequence. -/
def sha1 (msg : List Nat) : List Nat :=
  let padded :=
    msg ++ 128 :: List.replicate ((119 - msg.length % 64) % 64) 0 ++ be64 (msg.length * 8)
  match sha1Blocks (padded.length / 64) padded
      (1732584193, 4023233417, 2562383102, 271733878, 3285377520) with
  | (a, b, c, d, e) => wordBE a ++ wordBE b ++ wordBE c ++ wordBE d ++ wordBE e

/-! ### The field parser (`parse_fields` in `git_object.rs`) -/

/-- `iter().position(|&b| b == t)` followed by the two slices around the found
byte: `none` when `t` does not occur. -/
def splitAtByte (t : Nat) : List Nat → Option (List Nat × List Nat)
  | [] => none
  | b :: rest =>
    if b = t then some ([], rest)
    else
      match splitAtByte t rest with
      | none => none
      | some (p, s) => some (b :: p, s)

/-- `parse_fields`: splits `[field1] [field2]\x00[rest]`.  `ok none` is the
"no fields" sentinel for the empty buffer; `error` models the anyhow errors
(no space, no NUL after the space, or a field that is not valid UTF-8). -/
def parse_fields (bytes : List Nat) :
    Except Unit (Option (List Nat × List Nat × List Nat)) :=
  if bytes.isEmpty then .ok none
  else
    match splitAtByte 32 bytes with
    | none => .error ()
    | some (field1, rest1) =>
      if validUtf8 field1 then
        match splitAtByte 0 rest1 with
        | none => .error ()
        | some (field2, rest2) =>
          if validUtf8 field2 then .ok (some (field1, field2, rest2)) else .error ()
      else .error ()

/-! ### Objects and tree entries (`git_object.rs`) -/

deriving instance DecidableEq for Except

/-- Result of a Rust function that can return `Err`, panic, or succeed. -/
inductive PResult (α : Type) where
  | panic : PResult α
  | err : PResult α
  | ok : α → PResult α
deriving DecidableEq

structure TreeEntry where
  mode : Nat
  name : List Nat
  hash : List Nat
deriving DecidableEq

inductive Object where
  | blob : List Nat → Object
  | commit : List Nat → Object
  | tag : Object
  | tree : List TreeEntry → Object
deriving DecidableEq

def blobKind : List Nat := [98, 108, 111, 98]
def commitKind : List Nat := [99, 111, 109, 109, 105, 116]
def tagKind : List Nat := [116, 97, 103]
def treeKind : List Nat := [116, 114, 101, 101]

def Object.kind : Object → List Nat
  | .blob _ => blobKind
  | .tree _ => treeKind
  | .commit _ => commitKind
  | .tag => tagKind

/-- `TreeEntry::to_bytes`: `"<mode> <name>\x00"` followed by the hash field. -/
def TreeEntry.to_bytes (e : TreeEntry) : List Nat :=
  natDec e.mode ++ 32 :: e.name ++ 0 :: e.hash

/-- `Object::content_bytes`; `none` models the `unimplemented!()` panic on
`Tag`. -/
def Object.content_bytes : Object → Option (List Nat)
  | .blob b => some b
  | .tree entries => some ((entries.map TreeEntry.to_bytes).flatten)
  | .commit c => some c
  | .tag => none

/-- The canonical header `"<kind> <len>\x00"`. -/
def objHeader (kind : List Nat) (len : Nat) : List Nat :=
  kind ++ 32 :: natDec len ++ [0]

/-- `Object::to_bytes`: header followed by the content bytes. -/
def Object.to_bytes (o : Object) : Option (List Nat) :=
  o.content_bytes.map fun contents => objHeader o.kind contents.length ++ contents

/-- `Object::hash`: SHA-1 of the full canonical byte form. -/
def Object.hash (o : Object) : Option (List Nat) := o.to_bytes.map sha1

/-- `TreeEntry::from_bytes`: parse fields, parse the mode as `usize`, then
take `hex::encode(&rest[..20])` as the stored hash field; `&rest[..20]`
panics when `rest` has fewer than 20 bytes. -/
def TreeEntry.from_bytes (bytes : List Nat) : PResult (Option (TreeEntry × List Nat)) :=
  match parse_fields bytes with
  | .error _ => .err
  | .ok none => .ok none
  | .ok (some (mode, name, rest)) =>
    match parseUsize mode with
    | none => .err
    | some m =>
      if rest.length < 20 then .panic
      else .ok (some (⟨m, name, hexBytes (rest.take 20)⟩, rest.drop 20))

/-- The `while let` loop of `Object::from_bytes` over tree entries.  Fuel
decreases on every iteration; each successfully parsed entry consumes at
least one byte, so fuel `bytes.length + 1` never runs out. -/
def parseEntriesGo : Nat → List Nat → PResult (List TreeEntry)
  | 0, _ => .err
  | fuel + 1, bytes =>
    match TreeEntry.from_bytes bytes with
    | .panic => .panic
    | .err => .err
    | .ok none => .ok []
    | .ok (some (entry, rest)) =>
      match parseEntriesGo fuel rest with
      | .panic => .panic
      | .err => .err
      | .ok entries => .ok (entry :: entries)

/-- `Object::from_bytes`. -/
def Object.from_bytes (bytes : List Nat) : PResult Object :=
  match parse_fields bytes with
  | .error _ => .err
  | .ok none => .err
  | .ok (some (obj_type, _size, rest)) =>
    if obj_type = blobKind then
      if validUtf8 rest then .ok (.blob rest) else .err
    else if obj_type = commitKind then .ok (.commit rest)
    else if obj_type = tagKind then .ok .tag
    else if obj_type = treeKind then
      match parseEntriesGo (rest.length + 1) rest with
      | .panic => .panic
      | .err => .err
      | .ok entries => .ok (.tree entries)
    else .err

/-- Decode after encode, for objects whose encoding exists. -/
def roundTrip (o : Object) : Option (PResult Object) := o.to_bytes.map Object.from_bytes

/-- The entry produced by decoding an encoded entry: same mode and name, hash
field replaced by its 40-byte lowercase hex spelling. -/
def entryHex (e : TreeEntry) : TreeEntry := ⟨e.mode, e.name, hexBytes e.hash⟩

/-! ### The in-memory tree builder (`Tree`, `TreeNode`, `TreeNodeKind`) -/

mutual
inductive Tree where
  | mk : List TreeNode → Tree
inductive TreeNode where
  | mk : List Nat → TreeNodeKind → TreeNode
inductive TreeNodeKind where
  | blob : Object → Bool → TreeNodeKind
  | tree : Tree → TreeNodeKind
end

-- Structural size measures used as (always-sufficient) fuel below.
mutual
def Tree.size : Tree → Nat
  | .mk nodes => 1 + sizeNodes nodes
def TreeNode.size : TreeNode → Nat
  | .mk _ k => 1 + k.size
def TreeNodeKind.size : TreeNodeKind → Nat
  | .blob _ _ => 1
  | .tree t => 1 + t.size
def sizeNodes : List TreeNode → Nat
  | [] => 1
  | n :: rest => 1 + n.size + sizeNodes rest
end

def TreeNode.name : TreeNode → List Nat
  | .mk n _ => n

def TreeNode.kind : TreeNode → TreeNodeKind
  | .mk _ k => k

/-- `TreeNodeKind::mode`. -/
def TreeNodeKind.mode : TreeNodeKind → Nat
  | .blob _ is_executable => if is_executable then 100755 else 100644
  | .tree _ => 40000

/-- The entry comparison of `entries.sort_unstable_by_key(|e| e.name.clone())`:
`String` keys compare by raw byte-wise lexicographic order. -/
def nameLe (e1 e2 : TreeEntry) : Prop := bytesLe e1.name e2.name = true

instance : DecidableRel nameLe := fun a b =>
  inferInstanceAs (Decidable (bytesLe a.name b.name = true))

/-- `sort_unstable_by_key` modelled as a comparison sort by the same key
(for the distinct names of directory entries the sorted result is unique,
so the choice of sorting algorithm is immaterial). -/
def sortEntries (entries : List TreeEntry) : List TreeEntry :=
  List.insertionSort nameLe entries

/-- The canonical bytes of `Object::Tree(entries)`; equals
`Object.to_bytes (Object.tree entries)` definitionally. -/
def treeObjBytes (entries : List TreeEntry) : List Nat :=
  objHeader treeKind ((entries.map TreeEntry.to_bytes).flatten).length ++
    (entries.map TreeEntry.to_bytes).flatten

/-- The per-node loop of `Tree::write`, fuel-structural.  Returns the list of
object byte forms handed to `Object::write` (the store-write trace, in order)
together with the recorded `(mode, name, hash)` entries in iteration order.
Note the faithful bug: a `Blob` node contributes `obj.hash()` but *no* store
write — the source never calls `obj.write(root)` for blob nodes.  `none`
models a panic (`Object::to_bytes` of `Tag`) or fuel exhaustion (unreachable
for fuel ≥ `sizeNodes`). -/
def writeNodesGo : Nat → List TreeNode → Option (List (List Nat) × List TreeEntry)
  | 0, _ => none
  | _ + 1, [] => some ([], [])
  | fuel + 1, TreeNode.mk name kind :: rest =>
    match (match kind with
      | .blob obj _ => (Object.to_bytes obj).map fun bs => (([] : List (List Nat)), sha1 bs)
      | .tree (.mk nodes) =>
        (writeNodesGo fuel nodes).map fun p =>
          (p.1 ++ [treeObjBytes (sortEntries p.2)], sha1 (treeObjBytes (sortEntries p.2)))) with
    | none => none
    | some (tr, hash) =>
      match writeNodesGo fuel rest with
      | none => none
      | some (trR, entriesR) => some (tr ++ trR, TreeEntry.mk kind.mode name hash :: entriesR)

/-- `Tree::write`: process the nodes, sort the recorded entries by name,
build `Object::Tree`, hash it and persist it (the final trace element). -/
def Tree.write : Tree → Option (List (List Nat) × List Nat)
  | .mk nodes =>
    (writeNodesGo (sizeNodes nodes) nodes).map fun p =>
      (p.1 ++ [treeObjBytes (sortEntries p.2)], sha1 (treeObjBytes (sortEntries p.2)))

/-- The entries of the tree object persisted by `Tree::write` (the same
computation with the intermediate entry list exposed). -/
def Tree.writtenEntries : Tree → Option (List TreeEntry)
  | .mk nodes => (writeNodesGo (sizeNodes nodes) nodes).map fun p => sortEntries p.2

/-- The `(mode, name, hash)` record `Tree::write` produces for one node,
as a function of the node alone. -/
def nodeEntry : TreeNode → Option TreeEntry
  | .mk name (.blob obj ex) =>
    (Object.to_bytes obj).map fun bs => ⟨(TreeNodeKind.blob obj ex).mode, name, sha1 bs⟩
  | .mk name (.tree (.mk nodes)) =>
    (writeNodesGo (sizeNodes nodes) nodes).map fun p =>
      ⟨40000, name, sha1 (treeObjBytes (sortEntries p.2))⟩

/-! ### The filesystem data source and the two ingestion paths -/

/-- A directory entry as the filesystem walk provides it: a file with its
executable bit and raw byte content, or a subdirectory with its entries
(in filesystem enumeration order).  Names are raw OS-string bytes. -/
inductive Fs where
  | file : Bool → List Nat → Fs
  | dir : List (List Nat × Fs) → Fs

-- Structural size measures used as (always-sufficient) fuel below.
mutual
def Fs.size : Fs → Nat
  | .file _ _ => 1
  | .dir entries => 1 + sizeFsEntries entries
def sizeFsEntries : List (List Nat × Fs) → Nat
  | [] => 1
  | (_, f) :: rest => 1 + f.size + sizeFsEntries rest
end

/-- `Object::blobify`: reads the file content with `read_to_string`, which
fails unless the bytes are valid UTF-8. -/
def Object.blobify (contents : List Nat) : Except Unit Object :=
  if validUtf8 contents then .ok (.blob contents) else .error ()

/-- `Tree::from_working_directory`, fuel-structural over the nested entry
lists.  Entries whose name is not valid UTF-8 (`to_str` returns `None`) or
starts with `.` are skipped; a `blobify` failure aborts the whole walk. -/
def fromWorkingDirGo : Nat → List (List Nat × Fs) → Except Unit (List TreeNode)
  | 0, _ => .error ()
  | _ + 1, [] => .ok []
  | fuel + 1, (basename, entry) :: rest =>
    if !validUtf8 basename then fromWorkingDirGo fuel rest
    else if basename.head? = some 46 then fromWorkingDirGo fuel rest
    else
      match (match entry with
        | .dir entries =>
          (fromWorkingDirGo fuel entries).map fun nodes => TreeNodeKind.tree (.mk nodes)
        | .file is_exec contents =>
          (Object.blobify contents).map fun obj => TreeNodeKind.blob obj is_exec) with
      | .error e => .error e
      | .ok kind =>
        match fromWorkingDirGo fuel rest with
        | .error e => .error e
        | .ok restNodes => .ok (TreeNode.mk basename kind :: restNodes)

def Tree.from_working_directory (entries : List (List Nat × Fs)) : Except Unit Tree :=
  (fromWorkingDirGo (sizeFsEntries entries) entries).map Tree.mk

/-! ### The `lib.rs` write path (`read_dir`, `write_blob`, `write_obj`) -/

def modeStr (is_exec : Bool) : List Nat :=
  if is_exec then [49, 48, 48, 55, 53, 53] else [49, 48, 48, 54, 52, 52]

def dirModeStr : List Nat := [52, 48, 48, 48, 48]

/-- The blob object bytes `write_blob` builds: `"blob <len>\x00"` followed by
the raw file bytes (`read_to_end`: no UTF-8 requirement). -/
def blobObjBytes (contents : List Nat) : List Nat :=
  objHeader blobKind contents.length ++ contents

/-- `write_obj(obj, path)` restricted to its byte behaviour: the pair
(object bytes written, returned 20-byte hash).  The `path` parameter — the
store root the object file is created under — is elided here and modelled
explicitly by `write_objAt` below. -/
def write_obj (obj : List Nat) : List Nat × List Nat := (obj, sha1 obj)

/-- `write_blob(file, path)` restricted to its byte behaviour: raw file
bytes in, blob object bytes and hash out (no UTF-8 requirement).  The store
root `path` is elided here and modelled explicitly by `write_blobAt`. -/
def write_blob (contents : List Nat) : List Nat × List Nat := write_obj (blobObjBytes contents)

def recLe (r1 r2 : List Nat × List Nat × List Nat) : Prop := bytesLe r1.2.1 r2.2.1 = true

instance : DecidableRel recLe := fun a b =>
  inferInstanceAs (Decidable (bytesLe a.2.1 b.2.1 = true))

/-- `tree.sort_unstable_by_key(|(_, basename, _)| basename.clone())`. -/
def sortRecords (records : List (List Nat × List Nat × List Nat)) :
    List (List Nat × List Nat × List Nat) :=
  List.insertionSort recLe records

/-- `format!("{} {}\x00", mode, basename)` followed by the 20 raw hash bytes. -/
def encodeRecord (r : List Nat × List Nat × List Nat) : List Nat :=
  r.1 ++ 32 :: r.2.1 ++ 0 :: r.2.2

/-- The tree object bytes `read_dir` builds from its collected records. -/
def treeObjOf (records : List (List Nat × List Nat × List Nat)) : List Nat :=
  objHeader treeKind (((sortRecords records).map encodeRecord).flatten).length ++
    ((sortRecords records).map encodeRecord).flatten

/-- The entry loop of `read_dir` (`lib.rs`), fuel-structural.  Returns the
store-write trace in order and the collected `(mode-string, name, hash)`
records in enumeration order.  Files are persisted via `write_blob` during
the loop; a subdirectory contributes its full recursive trace (which ends
with its own tree object).  This variant records only the object bytes of
each write; `readDirAtGo` below additionally threads the `path` parameter
and records the store root each write lands under. -/
def readDirGo : Nat → List (List Nat × Fs) →
    List (List Nat) × List (List Nat × List Nat × List Nat)
  | 0, _ => ([], [])
  | _ + 1, [] => ([], [])
  | fuel + 1, (basename, entry) :: rest =>
    let (trR, recsR) := readDirGo fuel rest
    if !validUtf8 basename then (trR, recsR)
    else if basename.head? = some 46 then (trR, recsR)
    else
      match entry with
      | .file is_exec contents =>
        (blobObjBytes contents :: trR,
          (modeStr is_exec, basename, sha1 (blobObjBytes contents)) :: recsR)
      | .dir entries =>
        let (trC, recsC) := readDirGo fuel entries
        (trC ++ treeObjOf recsC :: trR, (dirModeStr, basename, sha1 (treeObjOf recsC)) :: recsR)

/-- `read_dir`: walk the entries, sort the records, persist the tree object
last, return its 20-byte hash (paired here with the store-write byte trace;
`read_dirAt` below keeps the store roots as well). -/
def read_dir (entries : List (List Nat × Fs)) : List (List Nat) × List Nat :=
  let (trace, records) := readDirGo (sizeFsEntries entries) entries
  (trace ++ [treeObjOf records], sha1 (treeObjOf records))

/-! ### The `lib.rs` write path with the store root kept

In `lib.rs`, `path` serves double duty: it is the directory being walked
*and* the store root handed to `write_blob(&entry, path)` and
`write_obj(&tree, path)`.  On recursion into a subdirectory the source calls
`read_dir(&entry)`, re-binding `path` to the subdirectory, so a nested
invocation's blob writes and its final tree write land under the
subdirectory's own `.git/objects`, not under the top-level invocation's
store root.  Store roots are modelled as lists of path components. -/

/-- `write_obj(obj, path)` with the store root kept: the object file is
created under `path/.git/objects/<first-2-hex-chars>/<remaining-38>` of the
hex-encoded hash, so the write event records the store root the object lands
under together with the object bytes; the 20-byte hash is returned. -/
def write_objAt (path : List (List Nat)) (obj : List Nat) :
    (List (List Nat) × List Nat) × List Nat := ((path, obj), sha1 obj)

/-- `write_blob(file, path)` with the store root kept: reads the raw file
bytes and persists the blob object under the store root `path`. -/
def write_blobAt (path : List (List Nat)) (contents : List Nat) :
    (List (List Nat) × List Nat) × List Nat := write_objAt path (blobObjBytes contents)

/-- The entry loop of `read_dir` with the `path` parameter threaded exactly
as in the source: files are persisted by `write_blob(&entry, path)` under
the current invocation's `path`; a subdirectory is processed by
`read_dir(&entry)` with `path` re-bound to `path ++ [basename]`, and that
nested invocation's own tree object is persisted by its final
`write_obj(&tree, path)` under the subdirectory.  Each trace element is
(store root the write lands under, object bytes). -/
def readDirAtGo : Nat → List (List Nat) → List (List Nat × Fs) →
    List (List (List Nat) × List Nat) × List (List Nat × List Nat × List Nat)
  | 0, _, _ => ([], [])
  | _ + 1, _, [] => ([], [])
  | fuel + 1, path, (basename, entry) :: rest =>
    if !validUtf8 basename then readDirAtGo fuel path rest
    else if basename.head? = some 46 then readDirAtGo fuel path rest
    else
      match entry with
      | .file is_exec contents =>
        ((write_blobAt path contents).1 :: (readDirAtGo fuel path rest).1,
          (modeStr is_exec, basename, (write_blobAt path contents).2) ::
            (readDirAtGo fuel path rest).2)
      | .dir entries =>
        ((readDirAtGo fuel (path ++ [basename]) entries).1 ++
            (write_objAt (path ++ [basename])
              (treeObjOf (readDirAtGo fuel (path ++ [basename]) entries).2)).1 ::
            (readDirAtGo fuel path rest).1,
          (dirModeStr, basename,
            (write_objAt (path ++ [basename])
              (treeObjOf (readDirAtGo fuel (path ++ [basename]) entries).2)).2) ::
            (readDirAtGo fuel path rest).2)

/-- `read_dir(path)` with the store root kept: the invocation's own tree
object is persisted under this invocation's `path` — which, for a nested
invocation, is the subdirectory itself rather than the top-level store
root. -/
def read_dirAt (path : List (List Nat)) (entries : List (List Nat × Fs)) :
    List (List (List Nat) × List Nat) × List Nat :=
  ((readDirAtGo (sizeFsEntries entries) path entries).1 ++
      [(write_objAt path
        (treeObjOf (readDirAtGo (sizeFsEntries entries) path entries).2)).1],
    (write_objAt path
      (treeObjOf (readDirAtGo (sizeFsEntries entries) path entries).2)).2)

/-- `Tree::write(root)` with the store root kept: `git_object.rs` threads
`root` unchanged through `Object::write(&self, root)` and the recursive
`tree.write(root)?` calls, so every store write of one invocation lands
under the same root (only tree objects are written — blob nodes are hashed
but never written, the bug of `writeNodesGo`). -/
def Tree.writeAt (root : List (List Nat)) (t : Tree) :
    Option (List (List (List Nat) × List Nat) × List Nat) :=
  (Tree.write t).map fun p => (p.1.map fun obj => (root, obj), p.2)

/-! ### `read_object` hash splitting (`lib.rs` / `main.rs`) -/

/-- Rust's `str::is_char_boundary` on the UTF-8 bytes of the string. -/
def isCharBoundary (s : List Nat) (i : Nat) : Bool :=
  if i = 0 then true
  else
    match s[i]? with
    | some b => !(128 ≤ b && b < 192)
    | none => i = s.length

/-- `&sha[..i]`: panics (`none`) unless `i` is a char boundary. -/
def strSliceTo (s : List Nat) (i : Nat) : Option (List Nat) :=
  if isCharBoundary s i then some (s.take i) else none

/-- `&sha[i..]`: panics (`none`) unless `i` is a char boundary. -/
def strSliceFrom (s : List Nat) (i : Nat) : Option (List Nat) :=
  if isCharBoundary s i then some (s.drop i) else none

/-- The pure prefix of `read_object`: split the hash string into the
2-character directory name and the remaining file name.  `none` models the
panic of the string slice operations `&sha[..2]` / `&sha[2..]`; the file
open (`ObjectNotFound`) would only happen after this point. -/
def read_object_path (sha : List Nat) : Option (List Nat × List Nat) := do
  let dir_name ← strSliceTo sha 2
  let file_name ← strSliceFrom sha 2
  pure (dir_name, file_name)

/-- The bytes before the first ASCII space (spec-side description of
field 1). -/
def field1Of (bytes : List Nat) : List Nat := bytes.takeWhile (fun b => b != 32)

/-- The bytes after the first ASCII space. -/
def rest1Of (bytes : List Nat) : List Nat := (bytes.dropWhile (fun b => b != 32)).tail

/-- The bytes between the first space and the first following NUL
(spec-side description of field 2). -/
def field2Of (bytes : List Nat) : List Nat := (rest1Of bytes).takeWhile (fun b => b != 0)

/-- The bytes after the first NUL that follows the first space. -/
def rest2Of (bytes : List Nat) : List Nat := ((rest1Of bytes).dropWhile (fun b => b != 0)).tail

/-! ## Support lemmas -/

theorem splitAtByte_none_iff {t : Nat} {l : List Nat} : splitAtByte t l = none ↔ t ∉ l := by
  induction l with
  | nil => simp [splitAtByte]
  | cons b rest ih =>
    by_cases hb : b = t
    · subst hb; simp [splitAtByte]
    · have h1 : ¬ t = b := fun heq => hb heq.symm
      simp only [splitAtByte, if_neg hb, List.mem_cons]
      cases h : splitAtByte t rest with
      | none => simp [ih.mp h, h1]
      | some p =>
        obtain ⟨p1, p2⟩ := p
        have ht : t ∈ rest := by
          by_contra hmem
          rw [ih.mpr hmem] at h
          exact Option.noConfusion h
        simp [ht]

theorem splitAtByte_some_shape {t : Nat} {l p s : List Nat}
    (h : splitAtByte t l = some (p, s)) :
    p = l.takeWhile (fun b => b != t) ∧
      s = (l.dropWhile (fun b => b != t)).tail ∧ t ∈ l := by
  induction l generalizing p s with
  | nil => simp [splitAtByte] at h
  | cons b rest ih =>
    by_cases hb : b = t
    · subst hb
      simp [splitAtByte] at h
      obtain ⟨hp, hs⟩ := h
      subst hp
      subst hs
      simp [List.takeWhile_cons, List.dropWhile_cons]
    · simp only [splitAtByte, if_neg hb] at h
      cases hs : splitAtByte t rest with
      | none => rw [hs] at h; exact Option.noConfusion h
      | some q =>
        obtain ⟨q1, q2⟩ := q
        rw [hs] at h
        simp only [Option.some.injEq, Prod.mk.injEq] at h
        obtain ⟨hp, hsq⟩ := h
        obtain ⟨h1, h2, h3⟩ := ih hs
        subst hp hsq
        simp [List.takeWhile_cons, List.dropWhile_cons, hb, h1.symm, h2.symm, h3]

theorem splitAtByte_concat {t : Nat} {xs : List Nat} (ys : List Nat)
    (h : ∀ x ∈ xs, x ≠ t) : splitAtByte t (xs ++ t :: ys) = some (xs, ys) := by
  induction xs with
  | nil => simp [splitAtByte]
  | cons b rest ih =>
    have hb : b ≠ t := h b (by simp)
    have ih2 := ih (fun x hx => h x (by simp [hx]))
    simp only [List.cons_append, splitAtByte, if_neg hb, List.append_eq, ih2]

theorem natDecAux_digits {fuel n b : Nat} (h : b ∈ natDecAux fuel n) :
    48 ≤ b ∧ b ≤ 57 := by
  induction fuel generalizing n with
  | zero => simp [natDecAux] at h
  | succ fuel ih =>
    simp only [natDecAux] at h
    by_cases hn : n < 10
    · rw [if_pos hn] at h
      simp at h
      omega
    · rw [if_neg hn] at h
      simp only [List.mem_append, List.mem_singleton] at h
      rcases h with h | h
      · exact ih h
      · have := Nat.mod_lt n (show 0 < 10 by decide)
        omega

theorem natDec_digits {n b : Nat} (h : b ∈ natDec n) : 48 ≤ b ∧ b ≤ 57 :=
  natDecAux_digits h

theorem natDecAux_ne_nil {fuel n : Nat} : natDecAux (fuel + 1) n ≠ [] := by
  simp only [natDecAux]
  by_cases hn : n < 10
  · simp [if_pos hn]
  · simp [if_neg hn]

theorem natDec_ne_nil {n : Nat} : natDec n ≠ [] := natDecAux_ne_nil

theorem natDecAux_foldl (fuel : Nat) : ∀ n acc : Nat, n < 10 ^ fuel →
    (natDecAux fuel n).foldl (fun acc b => acc * 10 + (b - 48)) acc =
      acc * 10 ^ (natDecAux fuel n).length + n := by
  induction fuel with
  | zero =>
    intro n acc h
    interval_cases n
    simp [natDecAux]
  | succ fuel ih =>
    intro n acc h
    by_cases hn : n < 10
    · simp only [natDecAux, if_pos hn, List.foldl_cons, List.foldl_nil, List.length_singleton]
      omega
    · simp only [natDecAux, if_neg hn, List.foldl_append, List.foldl_cons, List.foldl_nil,
        List.length_append, List.length_singleton]
      have hdiv : n / 10 < 10 ^ fuel := by
        rw [Nat.div_lt_iff_lt_mul (by decide)]
        calc n < 10 ^ (fuel + 1) := h
        _ = 10 ^ fuel * 10 := by ring
      rw [ih (n / 10) acc hdiv]
      have hmod : n / 10 * 10 + n % 10 = n := by omega
      have heq : (acc * 10 ^ (natDecAux fuel (n / 10)).length + n / 10) * 10 +
          (48 + n % 10 - 48) =
          acc * (10 ^ (natDecAux fuel (n / 10)).length * 10) + (n / 10 * 10 + n % 10) := by
        have h48 : 48 + n % 10 - 48 = n % 10 := by omega
        rw [h48]; ring
      rw [heq, hmod, ← pow_succ]

theorem parseUsize_natDec {m : Nat} (h : m < 18446744073709551616) :
    parseUsize (natDec m) = some m := by
  have hall : (natDec m).all (fun b => 48 ≤ b && b ≤ 57) = true := by
    rw [List.all_eq_true]
    intro b hb
    have := natDec_digits hb
    simp only [Bool.and_eq_true, decide_eq_true_eq]
    omega
  have hfold : (natDec m).foldl (fun acc b => acc * 10 + (b - 48)) 0 = m := by
    have := natDecAux_foldl (m + 1) m 0
      (lt_of_lt_of_le (Nat.lt_pow_self (by decide) m)
        (Nat.pow_le_pow_right (by decide) (Nat.le_succ m)))
    simpa [natDec] using this
  have hne : natDec m ≠ [] := natDec_ne_nil
  have hhead : ¬((natDec m).head? = some 43) := by
    cases hd : natDec m with
    | nil => exact absurd hd hne
    | cons b rest =>
      have hb48 : 48 ≤ b := (natDec_digits (by rw [hd]; simp)).1
      simp only [List.head?_cons, Option.some.injEq]
      omega
  unfold parseUsize
  rw [if_neg hhead, if_neg (by simp [List.isEmpty_iff, hne]), if_pos hall, hfold, if_pos h]

theorem validUtf8Go_ascii {l : List Nat} (h : ∀ b ∈ l, b ≤ 127) :
    validUtf8Go l 0 128 191 = true := by
  induction l with
  | nil => rfl
  | cons b rest ih =>
    have hb : b ≤ 127 := h b (by simp)
    simp only [validUtf8Go, if_pos hb]
    exact ih (fun x hx => h x (by simp [hx]))

theorem validUtf8_ascii {l : List Nat} (h : ∀ b ∈ l, b ≤ 127) : validUtf8 l = true :=
  validUtf8Go_ascii h

theorem validUtf8_natDec {n : Nat} : validUtf8 (natDec n) = true :=
  validUtf8_ascii fun b hb => by have := natDec_digits hb; omega

theorem parse_fields_concat {k f2 r : List Nat}
    (hk32 : ∀ b ∈ k, b ≠ 32) (hkU : validUtf8 k = true)
    (hf0 : ∀ b ∈ f2, b ≠ 0) (hfU : validUtf8 f2 = true) :
    parse_fields (k ++ 32 :: (f2 ++ 0 :: r)) = .ok (some (k, f2, r)) := by
  have h1 : splitAtByte 32 (k ++ 32 :: (f2 ++ 0 :: r)) = some (k, f2 ++ 0 :: r) :=
    splitAtByte_concat _ hk32
  have h2 : splitAtByte 0 (f2 ++ 0 :: r) = some (f2, r) := splitAtByte_concat _ hf0
  simp only [parse_fields, h1, h2, hkU, if_true, hfU]
  rw [if_neg (by simp)]

theorem parse_fields_objHeader (kind c : List Nat) (len : Nat)
    (hk32 : ∀ b ∈ kind, b ≠ 32) (hkU : validUtf8 kind = true) :
    parse_fields (objHeader kind len ++ c) = .ok (some (kind, natDec len, c)) := by
  have hshape : objHeader kind len ++ c = kind ++ 32 :: (natDec len ++ 0 :: c) := by
    simp [objHeader]
  rw [hshape]
  exact parse_fields_concat hk32 hkU
    (fun b hb => by have := natDec_digits hb; omega) validUtf8_natDec

/-! ## Claim C6: the field parser's contract -/

/-- Claim C6: `parse_fields` returns the "no fields" sentinel (not an error)
exactly when the buffer is empty; it fails whenever the buffer is non-empty
and has no ASCII space, or no NUL byte after the first space, or either
extracted field is not valid UTF-8; otherwise it returns
`(field1, field2, remaining-bytes-after-NUL)` with `field1` the bytes before
the first space and `field2` the bytes between that space and the first
following NUL. -/
theorem parse_fields_characterization (bytes : List Nat) :
    (parse_fields bytes = .ok none ↔ bytes = []) ∧
    (parse_fields bytes = .error () ↔ bytes ≠ [] ∧
      ¬(32 ∈ bytes ∧ validUtf8 (field1Of bytes) = true ∧ 0 ∈ rest1Of bytes ∧
        validUtf8 (field2Of bytes) = true)) ∧
    (parse_fields bytes = .ok (some (field1Of bytes, field2Of bytes, rest2Of bytes)) ↔
      bytes ≠ [] ∧ 32 ∈ bytes ∧ validUtf8 (field1Of bytes) = true ∧
        0 ∈ rest1Of bytes ∧ validUtf8 (field2Of bytes) = true) := by
  by_cases hempty : bytes = []
  · subst hempty
    refine ⟨by simp [parse_fields], by simp [parse_fields], by simp [parse_fields]⟩
  · have hne : ¬(bytes.isEmpty = true) := by simp [List.isEmpty_iff, hempty]
    cases h32 : splitAtByte 32 bytes with
    | none =>
      have hmem : 32 ∉ bytes := splitAtByte_none_iff.mp h32
      refine ⟨?_, ?_, ?_⟩
      · simp [parse_fields, hne, h32, hempty]
      · simp [parse_fields, hne, h32, hempty, hmem]
      · simp [parse_fields, hne, h32, hempty, hmem]
    | some q =>
      obtain ⟨f1, r1⟩ := q
      obtain ⟨hf1, hr1, hmem32⟩ := splitAtByte_some_shape h32
      have hf1eq : f1 = field1Of bytes := hf1
      have hr1eq : r1 = rest1Of bytes := hr1
      by_cases hU1 : validUtf8 f1 = true
      · cases h0 : splitAtByte 0 r1 with
        | none =>
          have hmem0 : 0 ∉ r1 := splitAtByte_none_iff.mp h0
          refine ⟨?_, ?_, ?_⟩
          · simp [parse_fields, hne, h32, hU1, h0, hempty]
          · simp only [parse_fields, hne, if_false, h32, hU1, if_true, h0]
            rw [← hr1eq]
            simp [hempty, hmem0]
          · simp only [parse_fields, hne, if_false, h32, hU1, if_true, h0]
            rw [← hr1eq]
            simp [hempty, hmem0]
        | some q2 =>
          obtain ⟨f2, r2⟩ := q2
          obtain ⟨hf2, hr2, hmem0⟩ := splitAtByte_some_shape h0
          have hf2eq : f2 = field2Of bytes := by rw [hf2, hr1eq]; rfl
          have hr2eq : r2 = rest2Of bytes := by rw [hr2, hr1eq]; rfl
          by_cases hU2 : validUtf8 f2 = true
          · refine ⟨?_, ?_, ?_⟩
            · simp [parse_fields, hne, h32, hU1, h0, hU2, hempty]
            · simp only [parse_fields, hne, if_false, h32, hU1, if_true, h0, hU2]
              rw [← hf1eq, ← hr1eq, ← hf2eq]
              simp [hempty, hmem32, hmem0, hU1, hU2]
            · simp only [parse_fields, hne, if_false, h32, hU1, if_true, h0, hU2]
              rw [← hf1eq, ← hr1eq, ← hf2eq, ← hr2eq]
              simp [hempty, hmem32, hmem0, hU1, hU2]
          · refine ⟨?_, ?_, ?_⟩
            · simp [parse_fields, hne, h32, hU1, h0, hU2, hempty]
            · simp only [parse_fields, hne, if_false, h32, hU1, if_true, h0, hU2]
              rw [hf2eq] at hU2
              simp [hempty, hU2]
            · simp only [parse_fields, hne, if_false, h32, hU1, if_true, h0, hU2]
              rw [hf2eq] at hU2
              simp [hempty, hU2]
      · refine ⟨?_, ?_, ?_⟩
        · simp [parse_fields, hne, h32, hU1, hempty]
        · simp only [parse_fields, hne, if_false, h32, hU1]
          rw [hf1eq] at hU1
          simp [hempty, hU1]
        · simp only [parse_fields, hne, if_false, h32, hU1]
          rw [hf1eq] at hU1
          simp [hempty, hU1]

theorem parse_fields_characterization_witness :
    parse_fields [] = .ok none ∧
      parse_fields [97, 32, 98, 0, 99] = .ok (some ([97], [98], [99])) := by
  refine ⟨(parse_fields_characterization []).1.mpr rfl, ?_⟩
  have h := (parse_fields_characterization [97, 32, 98, 0, 99]).2.2.mpr
    ⟨by decide, by decide, by decide, by decide, by decide⟩
  rw [show field1Of [97, 32, 98, 0, 99] = [97] by decide,
    show field2Of [97, 32, 98, 0, 99] = [98] by decide,
    show rest2Of [97, 32, 98, 0, 99] = [99] by decide] at h
  exact h

/-! ## Claim C3: decoding a truncated tree entry -/

/-- Claim C3 (amended): for a buffer whose header parses as `(mode, name)`
with a mode that parses as an integer but whose remaining bytes after the NUL
number fewer than 20, `TreeEntry::from_bytes` panics at the out-of-range
slice `&rest[..20]` instead of returning a `TruncatedEntry` error: the
function is not total over arbitrary input bytes. -/
theorem treeEntry_from_bytes_truncated_panics (bytes f1 f2 r : List Nat) (m : Nat)
    (hp : parse_fields bytes = .ok (some (f1, f2, r)))
    (hm : parseUsize f1 = some m) (hr : r.length < 20) :
    TreeEntry.from_bytes bytes = .panic := by
  simp [TreeEntry.from_bytes, hp, hm, hr]

theorem treeEntry_from_bytes_truncated_panics_witness :
    TreeEntry.from_bytes [49, 48, 48, 54, 52, 52, 32, 97, 0, 5] = .panic :=
  treeEntry_from_bytes_truncated_panics [49, 48, 48, 54, 52, 52, 32, 97, 0, 5]
    [49, 48, 48, 54, 52, 52] [97] [5] 100644 (by decide) (by decide) (by decide)

/-- Claim C3 counterexample: on the buffer `"100644 a\x00"` followed by the
three bytes 1, 2, 3, decoding panics (models the Rust index panic); it does
not return an error value to the caller, so the claimed `TruncatedEntry`
error return does not happen and the function is not total. -/
theorem treeEntry_from_bytes_truncated_counterexample :
    TreeEntry.from_bytes [49, 48, 48, 54, 52, 52, 32, 97, 0, 1, 2, 3] = .panic ∧
      PResult.panic ≠ (PResult.err : PResult (Option (TreeEntry × List Nat))) := by
  exact ⟨by decide, by decide⟩

/-! ## Claim C7: the declared size is never validated -/

/-- Claim C7 (amended): `Object::from_bytes` does not parse the size field as
an integer and performs no validation on it: any size field that is valid
UTF-8 and free of NUL bytes is accepted — whether or not it is numeric and
whether or not it equals the body length — and the decoded body is the
remaining buffer after the header NUL. -/
theorem from_bytes_ignores_size (s c : List Nat)
    (hU : validUtf8 s = true) (h0 : ∀ b ∈ s, b ≠ 0) (hc : validUtf8 c = true) :
    Object.from_bytes ([98, 108, 111, 98, 32] ++ (s ++ 0 :: c)) = .ok (.blob c) := by
  have hsplit : parse_fields (98 :: 108 :: 111 :: 98 :: 32 :: (s ++ 0 :: c)) =
      .ok (some ([98, 108, 111, 98], s, c)) := by
    have hshape : (98 :: 108 :: 111 :: 98 :: 32 :: (s ++ 0 :: c) : List Nat) =
        [98, 108, 111, 98] ++ 32 :: (s ++ 0 :: c) := by simp
    rw [hshape]
    exact parse_fields_concat (by decide) (by decide) h0 hU
  simp [Object.from_bytes, hsplit, blobKind, hc]

theorem from_bytes_ignores_size_witness :
    Object.from_bytes [98, 108, 111, 98, 32, 120, 0, 104, 105] = .ok (.blob [104, 105]) := by
  have h := from_bytes_ignores_size [120] [104, 105] (by decide) (by decide) (by decide)
  simpa using h

/-- Claim C7 counterexample: `"blob x\x00hi"` (size field `"x"`, not a valid
non-negative integer) is accepted rather than rejected, and `"blob 5\x00hi"`
(declared size 5, body length 2) is accepted as well: the declared size is
neither parsed for validation nor compared with the body length. -/
theorem from_bytes_size_counterexample :
    Object.from_bytes [98, 108, 111, 98, 32, 120, 0, 104, 105] = .ok (.blob [104, 105]) ∧
      Object.from_bytes [98, 108, 111, 98, 32, 53, 0, 104, 105] = .ok (.blob [104, 105]) := by
  exact ⟨by decide, by decide⟩

/-! ## Claim C9: `read_object` panics on short hash strings -/

/-- Claim C9: for every hash string of fewer than 2 bytes, or whose first 2
bytes do not fall on a character boundary, the hash-splitting prefix of
`read_object` panics at the string slice operations `&sha[..2]` / `&sha[2..]`
(modelled as `none`) instead of returning a typed `ObjectNotFound` or
malformed-hash error; it succeeds exactly on char-boundary inputs, so the
public read interface is not total over arbitrary hash strings. -/
theorem read_object_path_panics (sha : List Nat) :
    (isCharBoundary sha 2 = false → read_object_path sha = none) ∧
    (sha.length < 2 → read_object_path sha = none) ∧
    (isCharBoundary sha 2 = true →
      read_object_path sha = some (sha.take 2, sha.drop 2)) := by
  refine ⟨?_, ?_, ?_⟩
  · intro h
    simp [read_object_path, strSliceTo, h]
  · intro h
    have hb : isCharBoundary sha 2 = false := by
      unfold isCharBoundary
      rw [if_neg (by decide)]
      have hnone : sha[2]? = none := by
        rw [List.getElem?_eq_none_iff]
        omega
      rw [hnone]
      simp
      omega
    simp [read_object_path, strSliceTo, hb]
  · intro h
    simp [read_object_path, strSliceTo, strSliceFrom, h]

theorem read_object_path_panics_witness :
    read_object_path [97] = none ∧ read_object_path [97, 98, 99] = some ([97, 98], [99]) := by
  constructor
  · exact (read_object_path_panics [97]).2.1 (by decide)
  · have h := (read_object_path_panics [97, 98, 99]).2.2 (by decide)
    simpa using h

/-! ## Claim C10: the two blob-ingestion paths disagree on UTF-8 -/

theorem fromWorkingDirGo_error_of_bad_file (entries : List (List Nat × Fs)) :
    ∀ (fuel : Nat) (n : List Nat) (ex : Bool) (c : List Nat),
      (n, Fs.file ex c) ∈ entries → validUtf8 n = true → ¬(n.head? = some 46) →
      validUtf8 c = false → fromWorkingDirGo fuel entries = .error () := by
  induction entries with
  | nil => intro fuel n ex c h; simp at h
  | cons e rest ih =>
    intro fuel n ex c hmem hU hdot hc
    obtain ⟨en, ef⟩ := e
    cases fuel with
    | zero => rfl
    | succ fuel =>
      rcases List.mem_cons.mp hmem with heq | hmem2
      · have h1 : en = n := congrArg Prod.fst heq.symm
        have h2 : ef = Fs.file ex c := congrArg Prod.snd heq.symm
        subst h1
        subst h2
        simp [fromWorkingDirGo, hU, hdot, Object.blobify, hc, Except.map]
      · have hrest := ih fuel n ex c hmem2 hU hdot hc
        simp only [fromWorkingDirGo, hrest]
        by_cases hskip1 : (!validUtf8 en) = true
        · rw [if_pos hskip1]
        · rw [if_neg hskip1]
          by_cases hskip2 : en.head? = some 46
          · rw [if_pos hskip2]
          · rw [if_neg hskip2]
            cases ef with
            | file ex2 c2 =>
              cases hbf : Object.blobify c2 with
              | error e => simp [hbf, Except.map]
              | ok obj => simp [hbf, Except.map]
            | dir entries2 =>
              cases hsub : fromWorkingDirGo fuel entries2 with
              | error e => simp [hsub, Except.map]
              | ok nodes => simp [hsub, Except.map]

/-- Claim C10: `Object::blobify` reads file content as a UTF-8 string and
fails on non-UTF-8 bytes, so building a tree over a directory containing a
file whose bytes are not valid UTF-8 returns an error (`write_tree` fails on
binary files), whereas `write_blob` reads raw bytes and accepts arbitrary
binary content: the two ingestion paths disagree on this precondition. -/
theorem blobify_vs_write_blob :
    (∀ c : List Nat, validUtf8 c = false → Object.blobify c = .error ()) ∧
    (∀ c : List Nat, validUtf8 c = true → Object.blobify c = .ok (.blob c)) ∧
    (∀ c : List Nat, write_blob c = (blobObjBytes c, sha1 (blobObjBytes c))) ∧
    (Object.blobify [255] = .error () ∧
      write_blob [255] = ([98, 108, 111, 98, 32, 49, 0, 255],
        sha1 [98, 108, 111, 98, 32, 49, 0, 255])) ∧
    (∀ (entries : List (List Nat × Fs)) (n : List Nat) (ex : Bool) (c : List Nat),
      (n, Fs.file ex c) ∈ entries → validUtf8 n = true → ¬(n.head? = some 46) →
      validUtf8 c = false → Tree.from_working_directory entries = .error ()) := by
  refine ⟨?_, ?_, ?_, ⟨?_, ?_⟩, ?_⟩
  · intro c hc; simp [Object.blobify, hc]
  · intro c hc; simp [Object.blobify, hc]
  · intro c; rfl
  · simp [Object.blobify, show validUtf8 [255] = false by decide]
  · decide
  · intro entries n ex c hmem hU hdot hc
    unfold Tree.from_working_directory
    rw [fromWorkingDirGo_error_of_bad_file entries (sizeFsEntries entries) n ex c hmem hU hdot hc]
    rfl

theorem blobify_vs_write_blob_witness :
    Object.blobify [255] = .error () ∧
      Tree.from_working_directory [([97], Fs.file false [255])] = .error () := by
  constructor
  · exact blobify_vs_write_blob.1 [255] (by decide)
  · exact blobify_vs_write_blob.2.2.2.2 [([97], Fs.file false [255])] [97] false [255]
      (by simp) (by decide) (by decide) (by decide)

/-! ## Claim C4: the hash is the digest of the full canonical form -/

theorem sha1_length (bs : List Nat) : (sha1 bs).length = 20 := by
  simp only [sha1]
  rcases h : sha1Blocks
      ((bs ++ 128 :: List.replicate ((119 - bs.length % 64) % 64) 0 ++
        be64 (bs.length * 8)).length / 64)
      (bs ++ 128 :: List.replicate ((119 - bs.length % 64) % 64) 0 ++ be64 (bs.length * 8))
      (1732584193, 4023233417, 2562383102, 271733878, 3285377520) with ⟨a, b, c, d, e⟩
  rw [h]
  simp [wordBE]

/-- Claim C4: for every `Object`, the content hash is the 20-byte SHA-1
digest of the object's entire canonical byte form produced by `to_bytes` —
header `"<kind> <content-length>\0"` included — not of the raw content alone
(witnessed by the empty blob, whose hash is the well-known `e69de29b...`
digest of `"blob 0\0"` and differs from the digest `da39a3ee...` of its
empty content), and hashing is a pure function: equal logical objects have
byte-identical canonical forms and therefore identical hashes. -/
theorem hash_is_digest_of_canonical_form :
    (∀ o : Object, Object.hash o = (Object.to_bytes o).map sha1) ∧
    (∀ (o : Object) (c : List Nat), Object.content_bytes o = some c →
      Object.to_bytes o = some (objHeader (Object.kind o) c.length ++ c)) ∧
    (∀ bs : List Nat, (sha1 bs).length = 20) ∧
    (Object.hash (.blob []) =
      some [230, 157, 226, 155, 178, 209, 214, 67, 75, 139, 41, 174, 119, 90, 216, 194,
        228, 140, 83, 145] ∧
      sha1 [] = [218, 57, 163, 238, 94, 107, 75, 13, 50, 85, 191, 239, 149, 96, 24, 144,
        175, 216, 7, 9] ∧
      Object.hash (.blob []) ≠ some (sha1 [])) ∧
    (∀ o o' : Object, o = o' → Object.to_bytes o = Object.to_bytes o' ∧
      Object.hash o = Object.hash o') := by
  refine ⟨fun o => rfl, ?_, sha1_length, ⟨by decide, by decide, by decide⟩, ?_⟩
  · intro o c h
    simp [Object.to_bytes, h]
  · intro o o' h
    subst h
    exact ⟨rfl, rfl⟩

theorem hash_is_digest_witness :
    Object.to_bytes (.blob [104]) = some (objHeader (Object.kind (.blob [104])) 1 ++ [104]) ∧
      Object.to_bytes (.blob [104]) = Object.to_bytes (.blob [104]) := by
  constructor
  · have h := hash_is_digest_of_canonical_form.2.1 (.blob [104]) [104] rfl
    simpa using h
  · exact (hash_is_digest_of_canonical_form.2.2.2.2 (.blob [104]) (.blob [104]) rfl).1

/-! ## Claim C1: decode after encode -/

theorem treeEntry_from_bytes_of_encoded (e : TreeEntry) (buf : List Nat)
    (hlen : e.hash.length = 20) (hname0 : 0 ∉ e.name) (hnameU : validUtf8 e.name = true)
    (hmode : e.mode < 18446744073709551616) :
    TreeEntry.from_bytes (e.to_bytes ++ buf) = .ok (some (entryHex e, buf)) := by
  have hshape : e.to_bytes ++ buf = natDec e.mode ++ 32 :: (e.name ++ 0 :: (e.hash ++ buf)) := by
    simp [TreeEntry.to_bytes]
  have hp : parse_fields (natDec e.mode ++ 32 :: (e.name ++ 0 :: (e.hash ++ buf)))
      = .ok (some (natDec e.mode, e.name, e.hash ++ buf)) :=
    parse_fields_concat (fun b hb => by have := natDec_digits hb; omega) validUtf8_natDec
      (fun b hb h0 => hname0 (h0 ▸ hb)) hnameU
  rw [hshape]
  simp only [TreeEntry.from_bytes, hp, parseUsize_natDec hmode]
  rw [if_neg (by simp [hlen]), List.take_left' hlen, List.drop_left' hlen]
  rfl

theorem parseEntriesGo_encoded (es : List TreeEntry) :
    ∀ fuel : Nat,
      (∀ e ∈ es, e.hash.length = 20 ∧ 0 ∉ e.name ∧ validUtf8 e.name = true ∧
        e.mode < 18446744073709551616) →
      ((es.map TreeEntry.to_bytes).flatten).length < fuel →
      parseEntriesGo fuel ((es.map TreeEntry.to_bytes).flatten) = .ok (es.map entryHex) := by
  induction es with
  | nil =>
    intro fuel _ hlen
    cases fuel with
    | zero => simp at hlen
    | succ fuel => simp [parseEntriesGo, TreeEntry.from_bytes, parse_fields]
  | cons e rest ih =>
    intro fuel hwf hlen
    obtain ⟨h1, h2, h3, h4⟩ := hwf e (by simp)
    have hflat : ((e :: rest).map TreeEntry.to_bytes).flatten =
        e.to_bytes ++ (rest.map TreeEntry.to_bytes).flatten := by simp
    cases fuel with
    | zero => simp at hlen
    | succ fuel =>
      rw [hflat] at hlen ⊢
      have hstep := treeEntry_from_bytes_of_encoded e ((rest.map TreeEntry.to_bytes).flatten)
        h1 h2 h3 h4
      simp only [parseEntriesGo, hstep]
      have he1 : 1 ≤ e.to_bytes.length := by
        simp [TreeEntry.to_bytes]
        omega
      have hlen2 : ((rest.map TreeEntry.to_bytes).flatten).length < fuel := by
        rw [List.length_append] at hlen
        omega
      rw [ih fuel (fun x hx => hwf x (by simp [hx])) hlen2]
      simp

/-- Claim C1 (amended): for every Object constructible by this system,
decoding the encoding succeeds and yields an object of identical kind; for a
Blob or a Commit the decoded content bytes equal the original's.  For a Tree,
each decoded entry's mode and name equal the entry that was encoded, but the
decoded hash field is the 40-byte lowercase-hex ASCII spelling of the encoded
entry's 20 raw hash bytes (because the decoder stores
`hex::encode(&rest[..20])`), so the decoded entries — and hence the decoded
tree's content bytes — differ from the originals whenever the tree is
non-empty. -/
theorem round_trip_amended :
    (∀ c : List Nat, validUtf8 c = true → roundTrip (.blob c) = some (.ok (.blob c))) ∧
    (∀ c : List Nat, roundTrip (.commit c) = some (.ok (.commit c))) ∧
    (∀ es : List TreeEntry,
      (∀ e ∈ es, e.hash.length = 20 ∧ 0 ∉ e.name ∧ validUtf8 e.name = true ∧
        e.mode < 18446744073709551616) →
      roundTrip (.tree es) = some (.ok (.tree (es.map entryHex)))) := by
  refine ⟨?_, ?_, ?_⟩
  · intro c hc
    have hp := parse_fields_objHeader blobKind c c.length (by decide) (by decide)
    simp [roundTrip, Object.to_bytes, Object.content_bytes, Object.kind, Object.from_bytes,
      hp, hc]
  · intro c
    have hp := parse_fields_objHeader commitKind c c.length (by decide) (by decide)
    have htb : Object.to_bytes (Object.commit c) = some (objHeader commitKind c.length ++ c) :=
      rfl
    have hfb : Object.from_bytes (objHeader commitKind c.length ++ c) = .ok (.commit c) := by
      simp only [Object.from_bytes, hp]
      rw [if_neg (by decide)]
      simp
    simp [roundTrip, htb, hfb]
  · intro es hwf
    have hp := parse_fields_objHeader treeKind ((es.map TreeEntry.to_bytes).flatten)
      ((es.map TreeEntry.to_bytes).flatten).length (by decide) (by decide)
    have hparse := parseEntriesGo_encoded es (((es.map TreeEntry.to_bytes).flatten).length + 1)
      hwf (Nat.lt_succ_self _)
    have htb : Object.to_bytes (Object.tree es) =
        some (objHeader treeKind ((es.map TreeEntry.to_bytes).flatten).length ++
          (es.map TreeEntry.to_bytes).flatten) := rfl
    have hfb : Object.from_bytes (objHeader treeKind ((es.map TreeEntry.to_bytes).flatten).length
        ++ (es.map TreeEntry.to_bytes).flatten) = .ok (.tree (es.map entryHex)) := by
      simp only [Object.from_bytes, hp]
      rw [if_neg (by decide), if_neg (by decide), if_neg (by decide), if_pos trivial, hparse]
    unfold roundTrip
    rw [htb, Option.map_some', hfb]

/-- Claim C1 counterexample: for the constructible tree object with the single
entry `(100644, "a", 20 zero hash bytes)`, decoding the encoding succeeds but
the decoded entry's hash is the 40-byte ASCII hex spelling (40 × '0') of the
encoded entry's 20-byte hash, not the 20-byte hash itself, and the decoded
object's content bytes differ from the original's. -/
theorem round_trip_tree_counterexample :
    roundTrip (.tree [⟨100644, [97], List.replicate 20 0⟩]) =
      some (.ok (.tree [⟨100644, [97], List.replicate 40 48⟩])) ∧
    (List.replicate 40 48 : List Nat) ≠ List.replicate 20 0 ∧
    Object.content_bytes (.tree [⟨100644, [97], List.replicate 40 48⟩]) ≠
      Object.content_bytes (.tree [⟨100644, [97], List.replicate 20 0⟩]) := by
  exact ⟨by decide, by decide, by decide⟩

theorem round_trip_amended_witness :
    roundTrip (.blob [104, 105]) = some (.ok (.blob [104, 105])) ∧
      roundTrip (.tree [⟨100644, [97], List.replicate 20 0⟩]) =
        some (.ok (.tree [⟨100644, [97], List.replicate 40 48⟩])) := by
  constructor
  · exact round_trip_amended.1 [104, 105] (by decide)
  · have h := round_trip_amended.2.2 [⟨100644, [97], List.replicate 20 0⟩]
      (by
        intro e he
        simp only [List.mem_singleton] at he
        subst he
        exact ⟨by decide, by decide, by decide, by decide⟩)
    rw [show ([⟨100644, [97], List.replicate 20 0⟩] :
        List TreeEntry).map entryHex = [⟨100644, [97], List.replicate 40 48⟩] by decide] at h
    exact h

/-! ## Byte-wise ordering lemmas -/

theorem bytesLt_asymm {x y : List Nat} (h1 : bytesLt x y = true) (h2 : bytesLt y x = true) :
    False := by
  induction x generalizing y with
  | nil => cases y <;> simp [bytesLt] at h1 h2
  | cons a as ih =>
    cases y with
    | nil => simp [bytesLt] at h1
    | cons b bs =>
      simp only [bytesLt] at h1 h2
      rcases Nat.lt_trichotomy a b with hab | hab | hab
      · rw [if_neg (by omega), if_pos hab] at h2
        exact Bool.noConfusion h2
      · subst hab
        rw [if_neg (by omega), if_neg (by omega)] at h1 h2
        exact ih h1 h2
      · rw [if_neg (by omega), if_pos hab] at h1
        exact Bool.noConfusion h1

theorem bytesLt_trans {x : List Nat} : ∀ {y z : List Nat}, bytesLt x y = true →
    bytesLt y z = true → bytesLt x z = true := by
  induction x with
  | nil =>
    intro y z h1 h2
    cases z with
    | nil => cases y <;> simp [bytesLt] at h1 h2
    | cons c cs => simp [bytesLt]
  | cons a as ih =>
    intro y z h1 h2
    cases y with
    | nil => simp [bytesLt] at h1
    | cons b bs =>
      cases z with
      | nil => simp [bytesLt] at h2
      | cons c cs =>
        simp only [bytesLt] at h1 h2 ⊢
        rcases Nat.lt_trichotomy a b with hab | hab | hab
        · rcases Nat.lt_trichotomy b c with hbc | hbc | hbc
          · rw [if_pos (by omega)]
          · subst hbc; rw [if_pos hab]
          · rw [if_neg (by omega), if_pos hbc] at h2
            exact Bool.noConfusion h2
        · subst hab
          rcases Nat.lt_trichotomy a c with hac | hac | hac
          · rw [if_pos hac]
          · subst hac
            rw [if_neg (by omega), if_neg (by omega)] at h1 h2 ⊢
            exact ih h1 h2
          · rw [if_neg (by omega), if_pos hac] at h2
            exact Bool.noConfusion h2
        · rw [if_neg (by omega), if_pos hab] at h1
          exact Bool.noConfusion h1

theorem bytesLt_connex {x : List Nat} : ∀ {y : List Nat}, bytesLt x y = false →
    bytesLt y x = false → x = y := by
  induction x with
  | nil =>
    intro y h1 _
    cases y with
    | nil => rfl
    | cons b bs => simp [bytesLt] at h1
  | cons a as ih =>
    intro y h1 h2
    cases y with
    | nil => simp [bytesLt] at h2
    | cons b bs =>
      simp only [bytesLt] at h1 h2
      rcases Nat.lt_trichotomy a b with hab | hab | hab
      · rw [if_pos hab] at h1
        exact Bool.noConfusion h1
      · subst hab
        rw [if_neg (by omega), if_neg (by omega)] at h1 h2
        rw [ih h1 h2]
      · rw [if_pos hab] at h2
        exact Bool.noConfusion h2

theorem bytesLe_total (x y : List Nat) : bytesLe x y = true ∨ bytesLe y x = true := by
  rcases hxy : bytesLt y x with hf | ht
  · left; simp [bytesLe, hxy]
  · right
    rcases hyx : bytesLt x y with hf2 | ht2
    · simp [bytesLe, hyx]
    · exact absurd (bytesLt_asymm hyx hxy) (fun h => h)

theorem bytesLe_trans {x y z : List Nat} (h1 : bytesLe x y = true) (h2 : bytesLe y z = true) :
    bytesLe x z = true := by
  simp only [bytesLe, Bool.not_eq_true'] at h1 h2 ⊢
  rcases hzx : bytesLt z x with hf | ht
  · rfl
  · exfalso
    rcases hyz : bytesLt y z with hf2 | ht2
    · have := bytesLt_connex h2 hyz
      subst this
      rw [hzx] at h1
      exact Bool.noConfusion h1
    · have hlt := bytesLt_trans hyz hzx
      rw [h1] at hlt
      exact Bool.noConfusion hlt

theorem bytesLe_of_lt_imp {x y : List Nat} (hle : bytesLe x y = true) (hne : x ≠ y) :
    bytesLt x y = true := by
  simp only [bytesLe, Bool.not_eq_true'] at hle
  rcases hxy : bytesLt x y with hf | ht
  · exact absurd (bytesLt_connex hxy hle) hne
  · rfl

/-! ## Fuel irrelevance and record extraction for `Tree::write` -/

theorem treeNode_size_pos (n : TreeNode) : 1 ≤ n.size := by
  obtain ⟨name, kind⟩ := n
  simp [TreeNode.size]

theorem sizeNodes_pos (nodes : List TreeNode) : 1 ≤ sizeNodes nodes := by
  cases nodes with
  | nil => simp [sizeNodes]
  | cons n rest =>
    simp [sizeNodes]
    omega

theorem sizeNodes_cons (n : TreeNode) (rest : List TreeNode) :
    sizeNodes (n :: rest) = 1 + n.size + sizeNodes rest := by
  simp [sizeNodes]

theorem treeNode_size_blob (name : List Nat) (obj : Object) (ex : Bool) :
    (TreeNode.mk name (.blob obj ex)).size = 2 := by
  simp [TreeNode.size, TreeNodeKind.size]

theorem treeNode_size_tree (name : List Nat) (nodes : List TreeNode) :
    (TreeNode.mk name (.tree (.mk nodes))).size = 3 + sizeNodes nodes := by
  simp [TreeNode.size, TreeNodeKind.size, Tree.size]
  omega

theorem writeNodesGo_fuel (fuel1 : Nat) :
    ∀ (fuel2 : Nat) (nodes : List TreeNode), sizeNodes nodes ≤ fuel1 →
      sizeNodes nodes ≤ fuel2 → writeNodesGo fuel1 nodes = writeNodesGo fuel2 nodes := by
  induction fuel1 with
  | zero =>
    intro fuel2 nodes h1 _
    have := sizeNodes_pos nodes
    omega
  | succ fuel1 ih =>
    intro fuel2 nodes h1 h2
    cases nodes with
    | nil =>
      cases fuel2 with
      | zero => have := sizeNodes_pos ([] : List TreeNode); omega
      | succ fuel2 => rfl
    | cons node rest =>
      obtain ⟨name, kind⟩ := node
      cases fuel2 with
      | zero =>
        have := sizeNodes_pos (TreeNode.mk name kind :: rest)
        omega
      | succ fuel2 =>
        cases kind with
        | blob obj ex =>
          have hfacts : sizeNodes (TreeNode.mk name (.blob obj ex) :: rest) =
              3 + sizeNodes rest := by
            rw [sizeNodes_cons, treeNode_size_blob]
          rw [hfacts] at h1 h2
          have hrest1 : sizeNodes rest ≤ fuel1 := by omega
          have hrest2 : sizeNodes rest ≤ fuel2 := by omega
          simp only [writeNodesGo]
          rw [ih fuel2 rest hrest1 hrest2]
        | tree t =>
          obtain ⟨nodes2⟩ := t
          have hfacts : sizeNodes (TreeNode.mk name (.tree (.mk nodes2)) :: rest) =
              4 + sizeNodes nodes2 + sizeNodes rest := by
            rw [sizeNodes_cons, treeNode_size_tree]
            omega
          rw [hfacts] at h1 h2
          have hrest1 : sizeNodes rest ≤ fuel1 := by
            have := sizeNodes_pos nodes2
            omega
          have hrest2 : sizeNodes rest ≤ fuel2 := by
            have := sizeNodes_pos nodes2
            omega
          have hsub1 : sizeNodes nodes2 ≤ fuel1 := by
            have := sizeNodes_pos rest
            omega
          have hsub2 : sizeNodes nodes2 ≤ fuel2 := by
            have := sizeNodes_pos rest
            omega
          simp only [writeNodesGo]
          rw [ih fuel2 nodes2 hsub1 hsub2, ih fuel2 rest hrest1 hrest2]

theorem nodeEntry_name {n : TreeNode} {e : TreeEntry} (h : nodeEntry n = some e) :
    e.name = n.name := by
  obtain ⟨name, kind⟩ := n
  cases kind with
  | blob obj ex =>
    cases hob : Object.to_bytes obj with
    | none => rw [nodeEntry, hob] at h; exact Option.noConfusion h
    | some bs =>
      rw [nodeEntry, hob] at h
      simp only [Option.map_some', Option.some.injEq] at h
      rw [← h]
      rfl
  | tree t =>
    obtain ⟨nodes⟩ := t
    cases hw : writeNodesGo (sizeNodes nodes) nodes with
    | none => rw [nodeEntry, hw] at h; exact Option.noConfusion h
    | some p =>
      rw [nodeEntry, hw] at h
      simp only [Option.map_some', Option.some.injEq] at h
      rw [← h]
      rfl

theorem writeNodesGo_records (nodes : List TreeNode) :
    ∀ (fuel : Nat) (tr : List (List Nat)) (es : List TreeEntry), sizeNodes nodes ≤ fuel →
      writeNodesGo fuel nodes = some (tr, es) →
      List.Forall₂ (fun n e => nodeEntry n = some e) nodes es := by
  induction nodes with
  | nil =>
    intro fuel tr es hsize hw
    cases fuel with
    | zero => exact Option.noConfusion hw
    | succ fuel =>
      simp only [writeNodesGo, Option.some.injEq, Prod.mk.injEq] at hw
      rw [← hw.2]
      exact List.Forall₂.nil
  | cons node rest ih =>
    intro fuel tr es hsize hw
    obtain ⟨name, kind⟩ := node
    cases fuel with
    | zero => exact Option.noConfusion hw
    | succ fuel =>
      cases kind with
      | blob obj ex =>
        rw [sizeNodes_cons, treeNode_size_blob] at hsize
        simp only [writeNodesGo] at hw
        cases hob : Object.to_bytes obj with
        | none => rw [hob] at hw; exact Option.noConfusion hw
        | some bs =>
          rw [hob] at hw
          simp only [Option.map_some'] at hw
          cases hrest : writeNodesGo fuel rest with
          | none => rw [hrest] at hw; exact Option.noConfusion hw
          | some p =>
            obtain ⟨trR, esR⟩ := p
            rw [hrest] at hw
            simp only [Option.some.injEq, Prod.mk.injEq] at hw
            rw [← hw.2]
            refine List.Forall₂.cons ?_ (ih fuel trR esR (by omega) hrest)
            simp [nodeEntry, hob]
      | tree t =>
        obtain ⟨nodes2⟩ := t
        have hsize2 := hsize
        rw [sizeNodes_cons, treeNode_size_tree] at hsize2
        simp only [writeNodesGo] at hw
        cases hsub : writeNodesGo fuel nodes2 with
        | none => rw [hsub] at hw; exact Option.noConfusion hw
        | some q =>
          rw [hsub] at hw
          simp only [Option.map_some'] at hw
          cases hrest : writeNodesGo fuel rest with
          | none => rw [hrest] at hw; exact Option.noConfusion hw
          | some p =>
            obtain ⟨trR, esR⟩ := p
            rw [hrest] at hw
            simp only [Option.some.injEq, Prod.mk.injEq] at hw
            rw [← hw.2]
            have hsubfix : writeNodesGo (sizeNodes nodes2) nodes2 = some q := by
              rw [writeNodesGo_fuel (sizeNodes nodes2) fuel nodes2 le_rfl
                (by have := sizeNodes_pos rest; omega)]
              exact hsub
            refine List.Forall₂.cons ?_
              (ih fuel trR esR (by have := sizeNodes_pos nodes2; omega) hrest)
            simp [nodeEntry, hsubfix, TreeNodeKind.mode]

theorem forall₂_eq_filterMap {nodes : List TreeNode} {es : List TreeEntry}
    (h : List.Forall₂ (fun n e => nodeEntry n = some e) nodes es) :
    es = nodes.filterMap nodeEntry := by
  induction h with
  | nil => rfl
  | cons hne htail ih => simp [List.filterMap_cons, hne, ih]

theorem forall₂_name_map {nodes : List TreeNode} {es : List TreeEntry}
    (h : List.Forall₂ (fun n e => nodeEntry n = some e) nodes es) :
    es.map TreeEntry.name = nodes.map TreeNode.name := by
  induction h with
  | nil => rfl
  | cons hne htail ih => simp [nodeEntry_name hne, ih]

/-! ## Claim C5: written tree entries are sorted by name -/

theorem sortEntries_sorted (l : List TreeEntry) : List.Sorted nameLe (sortEntries l) := by
  haveI : IsTotal TreeEntry nameLe := ⟨fun a b => bytesLe_total a.name b.name⟩
  haveI : IsTrans TreeEntry nameLe := ⟨fun _ _ _ h1 h2 => bytesLe_trans h1 h2⟩
  exact List.sorted_insertionSort nameLe l

theorem sortEntries_perm (l : List TreeEntry) : (sortEntries l).Perm l :=
  List.perm_insertionSort nameLe l

theorem sorted_strict {l : List TreeEntry} (hs : List.Sorted nameLe l)
    (hnd : (l.map TreeEntry.name).Nodup) :
    List.Sorted (fun a b => bytesLt a.name b.name = true) l := by
  have hpair : List.Pairwise (fun a b : TreeEntry => a.name ≠ b.name) l :=
    List.pairwise_map.mp hnd
  exact (hs.and hpair).imp fun hab =>
    bytesLe_of_lt_imp hab.1 hab.2

theorem sorted_perm_nodup_eq {l1 l2 : List TreeEntry}
    (hperm : l1.Perm l2) (hs1 : List.Sorted nameLe l1) (hs2 : List.Sorted nameLe l2)
    (hnd : (l1.map TreeEntry.name).Nodup) : l1 = l2 := by
  haveI : IsAntisymm TreeEntry (fun a b => bytesLt a.name b.name = true) :=
    ⟨fun a b h1 h2 => absurd (bytesLt_asymm h1 h2) (fun h => h)⟩
  have hnd2 : (l2.map TreeEntry.name).Nodup := ((hperm.map TreeEntry.name).nodup_iff).mp hnd
  exact List.eq_of_perm_of_sorted hperm (sorted_strict hs1 hnd) (sorted_strict hs2 hnd2)

/-- Claim C5: for every in-memory node list handed to `Tree::write`, the
written tree object's entries are sorted by name under raw byte-wise
ordering, and the result is independent of the enumeration order: any two
permutations of a node list with distinct names produce the same entry
list (so `"b", "a", "c"` always comes out in the order `a, b, c`). -/
theorem tree_write_entries_sorted :
    (∀ (nodes : List TreeNode) (es : List TreeEntry),
      Tree.writtenEntries (.mk nodes) = some es → List.Sorted nameLe es) ∧
    (∀ (l1 l2 : List TreeNode) (es1 es2 : List TreeEntry), l1.Perm l2 →
      (l1.map TreeNode.name).Nodup →
      Tree.writtenEntries (.mk l1) = some es1 → Tree.writtenEntries (.mk l2) = some es2 →
      es1 = es2) := by
  constructor
  · intro nodes es hw
    cases hgo : writeNodesGo (sizeNodes nodes) nodes with
    | none => rw [Tree.writtenEntries, hgo] at hw; exact Option.noConfusion hw
    | some p =>
      rw [Tree.writtenEntries, hgo] at hw
      simp only [Option.map_some', Option.some.injEq] at hw
      rw [← hw]
      exact sortEntries_sorted p.2
  · intro l1 l2 es1 es2 hperm hnd hw1 hw2
    cases hgo1 : writeNodesGo (sizeNodes l1) l1 with
    | none => rw [Tree.writtenEntries, hgo1] at hw1; exact Option.noConfusion hw1
    | some p1 =>
      cases hgo2 : writeNodesGo (sizeNodes l2) l2 with
      | none => rw [Tree.writtenEntries, hgo2] at hw2; exact Option.noConfusion hw2
      | some p2 =>
        rw [Tree.writtenEntries, hgo1] at hw1
        rw [Tree.writtenEntries, hgo2] at hw2
        simp only [Option.map_some', Option.some.injEq] at hw1 hw2
        obtain ⟨tr1, r1⟩ := p1
        obtain ⟨tr2, r2⟩ := p2
        have hf1 := writeNodesGo_records l1 (sizeNodes l1) tr1 r1 le_rfl hgo1
        have hf2 := writeNodesGo_records l2 (sizeNodes l2) tr2 r2 le_rfl hgo2
        have hr1 : r1 = l1.filterMap nodeEntry := forall₂_eq_filterMap hf1
        have hr2 : r2 = l2.filterMap nodeEntry := forall₂_eq_filterMap hf2
        have hrperm : r1.Perm r2 := by
          rw [hr1, hr2]
          exact hperm.filterMap nodeEntry
        have hesperm : es1.Perm es2 := by
          rw [← hw1, ← hw2]
          exact ((sortEntries_perm r1).trans hrperm).trans (sortEntries_perm r2).symm
        have hnames1 : (r1.map TreeEntry.name).Nodup := by
          rw [forall₂_name_map hf1]
          exact hnd
        have hnd1 : (es1.map TreeEntry.name).Nodup := by
          rw [← hw1]
          exact (((sortEntries_perm r1).map TreeEntry.name).nodup_iff).mpr hnames1
        refine sorted_perm_nodup_eq hesperm ?_ ?_ hnd1
        · rw [← hw1]; exact sortEntries_sorted r1
        · rw [← hw2]; exact sortEntries_sorted r2

theorem tree_write_entries_sorted_witness :
    Tree.writtenEntries (.mk [TreeNode.mk [98] (.blob (.blob []) false),
        TreeNode.mk [97] (.blob (.blob []) false),
        TreeNode.mk [99] (.blob (.blob []) false)]) =
      some [⟨100644, [97], sha1 [98, 108, 111, 98, 32, 48, 0]⟩,
        ⟨100644, [98], sha1 [98, 108, 111, 98, 32, 48, 0]⟩,
        ⟨100644, [99], sha1 [98, 108, 111, 98, 32, 48, 0]⟩] ∧
    List.Sorted nameLe [(⟨100644, [97], sha1 [98, 108, 111, 98, 32, 48, 0]⟩ : TreeEntry),
      ⟨100644, [98], sha1 [98, 108, 111, 98, 32, 48, 0]⟩,
      ⟨100644, [99], sha1 [98, 108, 111, 98, 32, 48, 0]⟩] ∧
    ([(⟨100644, [97], sha1 [98, 108, 111, 98, 32, 48, 0]⟩ : TreeEntry),
      ⟨100644, [98], sha1 [98, 108, 111, 98, 32, 48, 0]⟩,
      ⟨100644, [99], sha1 [98, 108, 111, 98, 32, 48, 0]⟩] : List TreeEntry) =
      [⟨100644, [97], sha1 [98, 108, 111, 98, 32, 48, 0]⟩,
        ⟨100644, [98], sha1 [98, 108, 111, 98, 32, 48, 0]⟩,
        ⟨100644, [99], sha1 [98, 108, 111, 98, 32, 48, 0]⟩] := by
  have hval : Tree.writtenEntries (.mk [TreeNode.mk [98] (.blob (.blob []) false),
      TreeNode.mk [97] (.blob (.blob []) false),
      TreeNode.mk [99] (.blob (.blob []) false)]) =
      some [⟨100644, [97], sha1 [98, 108, 111, 98, 32, 48, 0]⟩,
        ⟨100644, [98], sha1 [98, 108, 111, 98, 32, 48, 0]⟩,
        ⟨100644, [99], sha1 [98, 108, 111, 98, 32, 48, 0]⟩] := by decide
  refine ⟨hval, tree_write_entries_sorted.1 _ _ hval, ?_⟩
  refine tree_write_entries_sorted.2
    [TreeNode.mk [98] (.blob (.blob []) false), TreeNode.mk [97] (.blob (.blob []) false),
      TreeNode.mk [99] (.blob (.blob []) false)]
    [TreeNode.mk [97] (.blob (.blob []) false), TreeNode.mk [98] (.blob (.blob []) false),
      TreeNode.mk [99] (.blob (.blob []) false)]
    _ _ ?_ (by decide) hval (by decide)
  exact List.Perm.swap _ _ _

/-! ## Claim C2: `Tree::write` never persists blob objects -/

/-- Claim C2 (code bug): `Tree::write` records `(100644, name, blob-hash)`
for a blob node but never calls `obj.write(root)` for it.  Writing the
in-memory tree holding the single file `"a"` with content `"hi"` performs
exactly one store write — the tree object — and the blob object
`"blob 2\0hi"` is not among the writes, so after writing the tree the
file's blob object does not exist at its hash-derived path.  The parallel
implementation `read_dir` in `lib.rs` does persist the blob: on the same
directory its store-write trace is the blob object followed by the same tree
object. -/
theorem tree_write_skips_blobs :
    Tree.write (.mk [TreeNode.mk [97] (.blob (.blob [104, 105]) false)]) =
      some ([[116, 114, 101, 101, 32, 50, 57, 0, 49, 48, 48, 54, 52, 52, 32, 97, 0] ++
        sha1 [98, 108, 111, 98, 32, 50, 0, 104, 105]],
        sha1 ([116, 114, 101, 101, 32, 50, 57, 0, 49, 48, 48, 54, 52, 52, 32, 97, 0] ++
          sha1 [98, 108, 111, 98, 32, 50, 0, 104, 105])) ∧
    [98, 108, 111, 98, 32, 50, 0, 104, 105] ∉
      [[116, 114, 101, 101, 32, 50, 57, 0, 49, 48, 48, 54, 52, 52, 32, 97, 0] ++
        sha1 [98, 108, 111, 98, 32, 50, 0, 104, 105]] ∧
    (read_dir [([97], Fs.file false [104, 105])]).1 =
      [[98, 108, 111, 98, 32, 50, 0, 104, 105],
        [116, 114, 101, 101, 32, 50, 57, 0, 49, 48, 48, 54, 52, 52, 32, 97, 0] ++
          sha1 [98, 108, 111, 98, 32, 50, 0, 104, 105]] := by
  refine ⟨by decide, by decide, by decide⟩

/-! ## Claim C8: where and when child objects are persisted -/

-- The store root enters `readDirAtGo` only as a prefix of every write
-- location: shifting the root by a prefix `p` shifts every trace path by
-- `p` and leaves the tree records (modes, names, hashes) unchanged.
theorem readDirAtGo_shift : ∀ (fuel : Nat) (p r : List (List Nat))
    (entries : List (List Nat × Fs)),
    readDirAtGo fuel (p ++ r) entries =
      (((readDirAtGo fuel r entries).1.map fun q => (p ++ q.1, q.2)),
        (readDirAtGo fuel r entries).2)
  | 0, _, _, _ => rfl
  | _ + 1, _, _, [] => rfl
  | fuel + 1, p, r, (basename, entry) :: rest => by
    have ihR := readDirAtGo_shift fuel p r rest
    simp only [readDirAtGo]
    by_cases hv : (!validUtf8 basename) = true
    · simp only [if_pos hv]
      exact ihR
    · simp only [if_neg hv]
      by_cases hd : basename.head? = some 46
      · simp only [if_pos hd]
        exact ihR
      · simp only [if_neg hd]
        cases entry with
        | file is_exec contents =>
          rw [ihR]
          simp [write_blobAt, write_objAt]
        | dir entries2 =>
          have ihC := readDirAtGo_shift fuel p (r ++ [basename]) entries2
          dsimp only
          rw [List.append_assoc p r [basename], ihC, ihR]
          simp [write_objAt]

/-- Claim C8 (code bug): at the failing input — a directory holding the
subdirectory `"d"` which holds the file `"f"` with content `"hi"`, written
with invocation store root `root` — `read_dir`'s store-write sequence is
(1) the blob object under `root/d/.git/objects`, (2) the subdirectory's own
tree object under `root/d/.git/objects`, (3) the parent tree object under
`root/.git/objects`.  The claimed write ORDER holds: every child write
precedes the parent tree's write, which comes last.  But because the
recursion `read_dir(&entry)` re-binds the store root to the subdirectory,
the subdirectory's tree object is NOT persisted at its hash-derived path
under the invocation root's store — no write at store root `root` carries
its bytes — so it is not independently resolvable there, contradicting the
claim.  `Tree::write` (git_object.rs) shows the intent: it threads one root
through all levels, writing the subtree's own object under `root` strictly
before the parent tree's object (while persisting no blobs at all — the
separate bug of claim C2). -/
theorem read_dir_nested_write_location (root : List (List Nat)) :
    (read_dirAt root [([100], Fs.dir [([102], Fs.file false [104, 105])])]).1 =
      [(root ++ [[100]], [98, 108, 111, 98, 32, 50, 0, 104, 105]),
       (root ++ [[100]], [116, 114, 101, 101, 32, 50, 57, 0, 49, 48, 48, 54, 52, 52, 32, 102, 0]
          ++ sha1 [98, 108, 111, 98, 32, 50, 0, 104, 105]),
       (root, [116, 114, 101, 101, 32, 50, 56, 0, 52, 48, 48, 48, 48, 32, 100, 0] ++
          sha1 ([116, 114, 101, 101, 32, 50, 57, 0, 49, 48, 48, 54, 52, 52, 32, 102, 0]
            ++ sha1 [98, 108, 111, 98, 32, 50, 0, 104, 105]))] ∧
    (read_dirAt root [([100], Fs.dir [([102], Fs.file false [104, 105])])]).1.getLast? =
      some (root, [116, 114, 101, 101, 32, 50, 56, 0, 52, 48, 48, 48, 48, 32, 100, 0] ++
        sha1 ([116, 114, 101, 101, 32, 50, 57, 0, 49, 48, 48, 54, 52, 52, 32, 102, 0]
          ++ sha1 [98, 108, 111, 98, 32, 50, 0, 104, 105])) ∧
    (root ++ [[100]], [116, 114, 101, 101, 32, 50, 57, 0, 49, 48, 48, 54, 52, 52, 32, 102, 0]
        ++ sha1 [98, 108, 111, 98, 32, 50, 0, 104, 105]) ∈
      (read_dirAt root [([100], Fs.dir [([102], Fs.file false [104, 105])])]).1.dropLast ∧
    (root, [116, 114, 101, 101, 32, 50, 57, 0, 49, 48, 48, 54, 52, 52, 32, 102, 0]
        ++ sha1 [98, 108, 111, 98, 32, 50, 0, 104, 105]) ∉
      (read_dirAt root [([100], Fs.dir [([102], Fs.file false [104, 105])])]).1 ∧
    root ++ [[100]] ≠ root ∧
    Tree.writeAt root (.mk [TreeNode.mk [100]
        (.tree (.mk [TreeNode.mk [102] (.blob (.blob [104, 105]) false)]))]) =
      some ([(root, [116, 114, 101, 101, 32, 50, 57, 0, 49, 48, 48, 54, 52, 52, 32, 102, 0]
          ++ sha1 [98, 108, 111, 98, 32, 50, 0, 104, 105]),
        (root, [116, 114, 101, 101, 32, 50, 56, 0, 52, 48, 48, 48, 48, 32, 100, 0] ++
          sha1 ([116, 114, 101, 101, 32, 50, 57, 0, 49, 48, 48, 54, 52, 52, 32, 102, 0]
            ++ sha1 [98, 108, 111, 98, 32, 50, 0, 104, 105]))],
        sha1 ([116, 114, 101, 101, 32, 50, 56, 0, 52, 48, 48, 48, 48, 32, 100, 0] ++
          sha1 ([116, 114, 101, 101, 32, 50, 57, 0, 49, 48, 48, 54, 52, 52, 32, 102, 0]
            ++ sha1 [98, 108, 111, 98, 32, 50, 0, 104, 105]))) := by
  have hroot : root ++ [[100]] ≠ root := by
    intro h
    have hl := congrArg List.length h
    simp at hl
  have hsz : sizeFsEntries [([100], Fs.dir [([102], Fs.file false [104, 105])])] = 6 :=
    by decide
  have hbase : readDirAtGo 6 ([] : List (List Nat))
      [([100], Fs.dir [([102], Fs.file false [104, 105])])] =
      ([([[100]], [98, 108, 111, 98, 32, 50, 0, 104, 105]),
        ([[100]], [116, 114, 101, 101, 32, 50, 57, 0, 49, 48, 48, 54, 52, 52, 32, 102, 0]
          ++ sha1 [98, 108, 111, 98, 32, 50, 0, 104, 105])],
       [([52, 48, 48, 48, 48], [100],
          sha1 ([116, 114, 101, 101, 32, 50, 57, 0, 49, 48, 48, 54, 52, 52, 32, 102, 0]
            ++ sha1 [98, 108, 111, 98, 32, 50, 0, 104, 105]))]) := by decide
  have htree : treeObjOf [([52, 48, 48, 48, 48], [100],
      sha1 ([116, 114, 101, 101, 32, 50, 57, 0, 49, 48, 48, 54, 52, 52, 32, 102, 0]
        ++ sha1 [98, 108, 111, 98, 32, 50, 0, 104, 105]))] =
      [116, 114, 101, 101, 32, 50, 56, 0, 52, 48, 48, 48, 48, 32, 100, 0] ++
        sha1 ([116, 114, 101, 101, 32, 50, 57, 0, 49, 48, 48, 54, 52, 52, 32, 102, 0]
          ++ sha1 [98, 108, 111, 98, 32, 50, 0, 104, 105]) := by decide
  have hshift := readDirAtGo_shift 6 root []
    [([100], Fs.dir [([102], Fs.file false [104, 105])])]
  rw [List.append_nil, hbase] at hshift
  have h1 : (read_dirAt root [([100], Fs.dir [([102], Fs.file false [104, 105])])]).1 =
      [(root ++ [[100]], [98, 108, 111, 98, 32, 50, 0, 104, 105]),
       (root ++ [[100]], [116, 114, 101, 101, 32, 50, 57, 0, 49, 48, 48, 54, 52, 52, 32, 102, 0]
          ++ sha1 [98, 108, 111, 98, 32, 50, 0, 104, 105]),
       (root, [116, 114, 101, 101, 32, 50, 56, 0, 52, 48, 48, 48, 48, 32, 100, 0] ++
          sha1 ([116, 114, 101, 101, 32, 50, 57, 0, 49, 48, 48, 54, 52, 52, 32, 102, 0]
            ++ sha1 [98, 108, 111, 98, 32, 50, 0, 104, 105]))] := by
    unfold read_dirAt
    rw [hsz, hshift]
    simp [write_objAt]
    simpa using htree
  have hW : Tree.write (.mk [TreeNode.mk [100]
      (.tree (.mk [TreeNode.mk [102] (.blob (.blob [104, 105]) false)]))]) =
      some ([[116, 114, 101, 101, 32, 50, 57, 0, 49, 48, 48, 54, 52, 52, 32, 102, 0]
          ++ sha1 [98, 108, 111, 98, 32, 50, 0, 104, 105],
        [116, 114, 101, 101, 32, 50, 56, 0, 52, 48, 48, 48, 48, 32, 100, 0] ++
          sha1 ([116, 114, 101, 101, 32, 50, 57, 0, 49, 48, 48, 54, 52, 52, 32, 102, 0]
            ++ sha1 [98, 108, 111, 98, 32, 50, 0, 104, 105])],
        sha1 ([116, 114, 101, 101, 32, 50, 56, 0, 52, 48, 48, 48, 48, 32, 100, 0] ++
          sha1 ([116, 114, 101, 101, 32, 50, 57, 0, 49, 48, 48, 54, 52, 52, 32, 102, 0]
            ++ sha1 [98, 108, 111, 98, 32, 50, 0, 104, 105]))) := by decide
  refine ⟨h1, by rw [h1]; rfl, by rw [h1]; simp, ?_, hroot, ?_⟩
  · intro hmem
    rw [h1] at hmem
    simp only [List.mem_cons, List.not_mem_nil, or_false] at hmem
    rcases hmem with h | h | h
    · exact hroot (congrArg Prod.fst h).symm
    · exact hroot (congrArg Prod.fst h).symm
    · have hsnd : ([116, 114, 101, 101, 32, 50, 57, 0, 49, 48, 48, 54, 52, 52, 32, 102, 0]
          ++ sha1 [98, 108, 111, 98, 32, 50, 0, 104, 105] : List Nat) =
          [116, 114, 101, 101, 32, 50, 56, 0, 52, 48, 48, 48, 48, 32, 100, 0] ++
            sha1 ([116, 114, 101, 101, 32, 50, 57, 0, 49, 48, 48, 54, 52, 52, 32, 102, 0]
              ++ sha1 [98, 108, 111, 98, 32, 50, 0, 104, 105]) := congrArg Prod.snd h
      exact absurd hsnd (by decide)
  · unfold Tree.writeAt
    rw [hW]
    rfl

theorem read_dir_nested_write_location_witness :
    (read_dirAt [] [([100], Fs.dir [([102], Fs.file false [104, 105])])]).1 =
      [([[100]], [98, 108, 111, 98, 32, 50, 0, 104, 105]),
       ([[100]], [116, 114, 101, 101, 32, 50, 57, 0, 49, 48, 48, 54, 52, 52, 32, 102, 0]
          ++ sha1 [98, 108, 111, 98, 32, 50, 0, 104, 105]),
       ([], [116, 114, 101, 101, 32, 50, 56, 0, 52, 48, 48, 48, 48, 32, 100, 0] ++
          sha1 ([116, 114, 101, 101, 32, 50, 57, 0, 49, 48, 48, 54, 52, 52, 32, 102, 0]
            ++ sha1 [98, 108, 111, 98, 32, 50, 0, 104, 105]))] := by
  have h := (read_dir_nested_write_location []).1
  simpa using h

end Git
